import Mathlib

/-!
Verification of the catalog-refresh-and-query engine in `api/index.js`
(`src/unnamed/part_000` is the newest revision of the handler and the one the
specification describes; the two sibling files are earlier revisions of the
same module).  Strings are modelled as `List Char`, JS numbers as `ℚ`, and
fallible parsing as `Option`.  Every definition is a direct translation of the
corresponding JavaScript function; doc comments cite the source lines.
-/

namespace Starmind

attribute [local semireducible] Rat.add Rat.inv Rat.mul Rat.sub

/-- Convenience: the character list of a string literal. -/
def str (s : String) : List Char := s.data

/-- Newline character, used by the answer composer's `join('\n')`. -/
def nlChar : Char := Char.ofNat 10

/-- JS `\s` / `String.prototype.trim` whitespace class (ECMA-262 WhiteSpace
plus LineTerminator code points). -/
def isJsWs (c : Char) : Bool :=
  let n := c.toNat
  n = 32 || n = 9 || n = 10 || n = 11 || n = 12 || n = 13 || n = 0xA0 ||
  n = 0x1680 || (0x2000 ≤ n && n ≤ 0x200A) || n = 0x2028 || n = 0x2029 ||
  n = 0x202F || n = 0x205F || n = 0x3000 || n = 0xFEFF

/-- Characters kept verbatim by the `[^a-z0-9\s]` replacement in `normalize`:
lowercase ASCII letters and ASCII digits. -/
def isLowerAlnum (c : Char) : Bool :=
  (97 ≤ c.toNat && c.toNat ≤ 122) || (48 ≤ c.toNat && c.toNat ≤ 57)

/-- JS `\d`: ASCII digits. -/
def isAsciiDigit (c : Char) : Bool :=
  48 ≤ c.toNat && c.toNat ≤ 57

/-- JS `\w`: ASCII word characters, used by the `\b` boundary of the
installment regex. -/
def isWordChar (c : Char) : Bool :=
  (65 ≤ c.toNat && c.toNat ≤ 90) || (97 ≤ c.toNat && c.toNat ≤ 122) ||
  (48 ≤ c.toNat && c.toNat ≤ 57) || c.toNat = 95

/-- JS `String.prototype.toLowerCase`, restricted to the Basic Latin and
Latin-1 letters that occur in this program's Portuguese inputs (`A`–`Z` and
`À`–`Þ` other than `×` map down by 32; everything else is fixed). -/
def jsToLower (c : Char) : Char :=
  let n := c.toNat
  if 65 ≤ n ∧ n ≤ 90 then Char.ofNat (n + 32)
  else if 0xC0 ≤ n ∧ n ≤ 0xDE ∧ n ≠ 0xD7 then Char.ofNat (n + 32)
  else c

/-- Canonical (NFD) decompositions of the precomposed Latin-1 lowercase
letters: each maps to its base letter followed by a combining mark in
U+0300–U+036F.  Letters outside the table (and all ASCII) are NFD-inert. -/
def nfdTable : List (Char × Char × Nat) :=
  [('à', 'a', 0x300), ('á', 'a', 0x301), ('â', 'a', 0x302), ('ã', 'a', 0x303),
   ('ä', 'a', 0x308), ('å', 'a', 0x30A), ('ç', 'c', 0x327), ('è', 'e', 0x300),
   ('é', 'e', 0x301), ('ê', 'e', 0x302), ('ë', 'e', 0x308), ('ì', 'i', 0x300),
   ('í', 'i', 0x301), ('î', 'i', 0x302), ('ï', 'i', 0x308), ('ñ', 'n', 0x303),
   ('ò', 'o', 0x300), ('ó', 'o', 0x301), ('ô', 'o', 0x302), ('õ', 'o', 0x303),
   ('ö', 'o', 0x308), ('ù', 'u', 0x300), ('ú', 'u', 0x301), ('û', 'u', 0x302),
   ('ü', 'u', 0x308), ('ý', 'y', 0x301), ('ÿ', 'y', 0x308)]

/-- One step of `String.prototype.normalize('NFD')` on a single character. -/
def nfdDecomp (c : Char) : List Char :=
  match nfdTable.find? (fun e => e.1 = c) with
  | some e => [e.2.1, Char.ofNat e.2.2]
  | none => [c]

/-- The Unicode `Diacritic` property as matched by `/\p{Diacritic}/gu`,
restricted to the combining-diacritics block plus the Latin-1 spacing
diacritics. -/
def isDiacritic (c : Char) : Bool :=
  let n := c.toNat
  (0x300 ≤ n && n ≤ 0x36F) || n = 0x5E || n = 0x60 || n = 0xA8 || n = 0xAF ||
  n = 0xB4 || n = 0xB7 || n = 0xB8

/-- The `[^a-z0-9\s]` → `' '` replacement of `normalize` on one character. -/
def keepAlnum (c : Char) : Char :=
  if isLowerAlnum c || isJsWs c then c else ' '

/-- The `\s+` → `' '` replacement: each maximal run of whitespace becomes a
single space. -/
def collapseWs : List Char → List Char
  | [] => []
  | [c] => if isJsWs c then [' '] else [c]
  | a :: b :: rest =>
    if isJsWs a && isJsWs b then collapseWs (b :: rest)
    else (if isJsWs a then ' ' else a) :: collapseWs (b :: rest)

/-- JS `String.prototype.trim`. -/
def jsTrim (l : List Char) : List Char :=
  ((l.dropWhile isJsWs).reverse.dropWhile isJsWs).reverse

/-- `normalize(s)` (source lines 236–243): lowercase, NFD-decompose, strip
diacritics, replace everything outside `[a-z0-9\s]` by a space, collapse
whitespace runs, trim. -/
def normalize (s : List Char) : List Char :=
  jsTrim (collapseWs
    (((((s.map jsToLower).map nfdDecomp).flatten).filter
        (fun c => !(isDiacritic c))).map keepAlnum))

example : normalize (str "Sapatênis Azul") = str "sapatenis azul" := by decide
example : normalize (str "  Qual   PREÇO?!  ") = str "qual preco" := by decide

/-- Whether `s` begins with `pat`. -/
def listStartsWith (pat s : List Char) : Bool :=
  s.take pat.length = pat

/-- JS `String.prototype.includes`: substring containment. -/
def containsSub (pat : List Char) : List Char → Bool
  | [] => pat.isEmpty
  | c :: rest => listStartsWith pat (c :: rest) || containsSub pat rest

example : containsSub (str "tenis") (str "qual sapatenis") = true := by decide
example : containsSub (str "camisa") (str "camiseta azul") = false := by decide

/-- Numeric value of an ASCII digit character. -/
def digitVal (c : Char) : Nat := c.toNat - 48

/-- Value of a most-significant-first ASCII digit string. -/
def digitsToNat (l : List Char) : Nat :=
  l.foldl (fun a c => 10 * a + digitVal c) 0

/-- JS `Number(string)` on the decimal-literal fragment of its grammar:
leading/trailing whitespace is trimmed, the empty string is `0`, otherwise the
string must be digits with at most one decimal point (and at least one digit).
Exponent, sign, hex and `Infinity` forms never reach `Number` in this program
(its inputs are built from `[\d.,]` captures), and any other character —
including a leftover comma — yields `NaN`, modelled as `none`. -/
def jsNumber (s : List Char) : Option ℚ :=
  let t := jsTrim s
  if t = [] then some 0
  else
    let ip := t.takeWhile (fun c => c ≠ '.')
    match t.dropWhile (fun c => c ≠ '.') with
    | [] => if ip ≠ [] ∧ ip.all isAsciiDigit then some (digitsToNat ip) else none
    | _ :: fp =>
      if ip.all isAsciiDigit ∧ fp.all isAsciiDigit ∧ (ip ≠ [] ∨ fp ≠ []) then
        some ((digitsToNat ip : ℚ) + (digitsToNat fp : ℚ) / (10 : ℚ) ^ fp.length)
      else none

/-- JS `String.prototype.replace(',', '.')`: only the first comma is
replaced. -/
def replaceFirstComma : List Char → List Char
  | [] => []
  | c :: rest => if c = ',' then '.' :: rest else c :: replaceFirstComma rest

/-- `toNumberBRL(s)` (source lines 358–363): the empty string is falsy and
returns `null`; otherwise every `.` is removed, the first `,` becomes `.` and
the result is parsed with `Number`, returning `null` when it is not finite. -/
def toNumberBRL (s : List Char) : Option ℚ :=
  if s = [] then none
  else jsNumber (replaceFirstComma (s.filter (fun c => c ≠ '.')))

example : toNumberBRL (str "15,99") = some (1599 / 100 : ℚ) := by decide
example : toNumberBRL (str "1.234,56") = some (123456 / 100 : ℚ) := by decide
example : toNumberBRL (str "R$ 15,99") = none := by decide

/-- Decimal digit printer with explicit fuel (structural recursion so that the
kernel can evaluate it; `natDigits` supplies enough fuel). -/
def natDigitsCore : Nat → Nat → List Char
  | 0, _ => []
  | fuel + 1, n =>
    if n < 10 then [Char.ofNat (48 + n)]
    else natDigitsCore fuel (n / 10) ++ [Char.ofNat (48 + n % 10)]

/-- Decimal digit string of a natural number, most significant first. -/
def natDigits (n : Nat) : List Char :=
  natDigitsCore (n + 1) n

/-- Two-digit zero-padded decimal string of `n % 100`. -/
def pad2 (n : Nat) : List Char :=
  [Char.ofNat (48 + n / 10 % 10), Char.ofNat (48 + n % 10)]

/-- JS `Number.prototype.toFixed(2)` on the absolute value: the integer `n`
nearest to `100·x` (ties towards the larger `n`), printed with two fraction
digits. -/
def toFixed2Abs (x : ℚ) : List Char :=
  let n : Nat := (⌊100 * x + 1 / 2⌋).toNat
  natDigits (n / 100) ++ '.' :: pad2 (n % 100)

/-- JS `Number.prototype.toFixed(2)`: a minus sign followed by the fixed-point
form of the absolute value. -/
def toFixed2 (v : ℚ) : List Char :=
  if v < 0 then '-' :: toFixed2Abs (-v) else toFixed2Abs v

/-- JS `String.prototype.replace('.', ',')`: only the first dot is
replaced. -/
def replaceFirstDot : List Char → List Char
  | [] => []
  | c :: rest => if c = '.' then ',' :: rest else c :: replaceFirstDot rest

/-- `fromNumberToBRL(v)` (source lines 364–366):
`'R$ ' + Number(v).toFixed(2).replace('.', ',')`. -/
def fromNumberToBRL (v : ℚ) : List Char :=
  str "R$ " ++ replaceFirstDot (toFixed2 v)

example : fromNumberToBRL 80 = str "R$ 80,00" := by decide
example : fromNumberToBRL (1599 / 100 : ℚ) = str "R$ 15,99" := by decide

/-- JS `String.prototype.replace(pat, '')` for a literal pattern: the first
occurrence of `pat` is removed (callers use it as `.replace('R$','')`,
source line 99). -/
def removeFirstOcc (pat : List Char) : List Char → List Char
  | [] => []
  | c :: rest =>
    if listStartsWith pat (c :: rest) then (c :: rest).drop pat.length
    else c :: removeFirstOcc pat rest

example : jsTrim (removeFirstOcc (str "R$") (str "R$ 80,00")) = str "80,00" := by
  decide

/-- Match `,\d{2}` at the head of `s`, returning the number of characters
consumed. -/
def matchComma : List Char → Option Nat
  | ',' :: a :: b :: _ => if isAsciiDigit a && isAsciiDigit b then some 3 else none
  | _ => none

/-- Match the greedy `(?:\.\d{3})*,\d{2}` tail of the BRL price regex at the
head of `s`, with backtracking: prefer consuming another `.\d{3}` group when
the remainder still matches, otherwise match the `,\d{2}` ending here. -/
def matchGroups : List Char → Option Nat
  | '.' :: a :: b :: c :: rest =>
    match
      (if isAsciiDigit a && isAsciiDigit b && isAsciiDigit c then
        (matchGroups rest).map (fun n => n + 4)
      else none) with
    | some n => some n
    | none => matchComma ('.' :: a :: b :: c :: rest)
  | s => matchComma s

/-- Match the capture group `[\d\.]{1,3}(?:\.\d{3})*,\d{2}` at the head of `s`
with the leading class matching exactly `k` characters; returns the total
capture length. -/
def tryAmountLen (s : List Char) (k : Nat) : Option Nat :=
  if (s.take k).length = k && (s.take k).all (fun c => isAsciiDigit c || c = '.') then
    (matchGroups (s.drop k)).map (fun n => n + k)
  else none

/-- Match the capture group of `/R\$\s*([\d\.]{1,3}(?:\.\d{3})*,\d{2})/` at the
head of `s`; the greedy `{1,3}` tries three characters first, then backtracks
to two and one. -/
def matchAmount (s : List Char) : Option Nat :=
  match tryAmountLen s 3 with
  | some n => some n
  | none =>
    match tryAmountLen s 2 with
    | some n => some n
    | none => tryAmountLen s 1

/-- Match the whole regex `R\$\s*(...)` (case-insensitive on the `R`) at the
head of `s`, returning the capture and the total match length. -/
def brlMatchAt : List Char → Option (List Char × Nat)
  | r :: '$' :: rest =>
    if r = 'R' || r = 'r' then
      let ws := rest.takeWhile isJsWs
      let tl := rest.dropWhile isJsWs
      match matchAmount tl with
      | some n => some (tl.take n, 2 + ws.length + n)
      | none => none
    else none
  | _ => none

example : brlMatchAt (str "R$ 15,99") = some (str "15,99", 8) := by decide
example : brlMatchAt (str "r$1.234,56 e") = some (str "1.234,56", 10) := by decide
example : brlMatchAt (str "R$ 15") = none := by decide

/-- The installment test `/\b\d+\s*x\s*$/i` (source line 200; the second
alternative `/\b\d+x\s*$/i` matches a subset of the first, so the disjunction
is this single pattern) on an already-lowercased window: from the end, skip
whitespace, require an `x`, skip whitespace, require a nonempty digit run, and
require the word boundary — the character before the maximal digit run, if
any, must not be a word character. -/
def endsWithInstallment (before : List Char) : Bool :=
  match (before.reverse).dropWhile isJsWs with
  | 'x' :: r2 =>
    let r3 := r2.dropWhile isJsWs
    (r3.takeWhile isAsciiDigit ≠ []) &&
      (match r3.dropWhile isAsciiDigit with
       | [] => true
       | c :: _ => !(isWordChar c))
  | _ => false

/-- The `before` window of source line 199: the (up to) eight characters of
`text` preceding position `i`, lowercased; the installment test is applied to
it. -/
def installmentAt (text : List Char) (i : Nat) : Bool :=
  endsWithInstallment (((text.take i).drop (i - 8)).map jsToLower)

example : installmentAt (str "10x R$ 15,99") 4 = true := by decide
example : installmentAt (str "R$ 15,99") 0 = false := by decide
example : installmentAt (str "10x foo R$ 15,99") 8 = false := by decide

/-- The scanning loop of source lines 196–204 (fuel-indexed so that the
recursion is structural; `collectTextPrices` supplies enough fuel): at each
position try the BRL price regex; on a match whose `before` window passes the
installment test contribute nothing, otherwise contribute `toNumberBRL` of
the capture when it is truthy (non-`null` and non-zero, JS `if (val)`);
resume after the match, mirroring `lastIndex`. -/
def scanFrom (text : List Char) : Nat → Nat → List ℚ
  | 0, _ => []
  | fuel + 1, i =>
    if text.length ≤ i then []
    else
      match brlMatchAt (text.drop i) with
      | some (cap, len) =>
        (if installmentAt text i then []
         else
           match toNumberBRL cap with
           | some v => if v ≠ 0 then [v] else []
           | none => []) ++ scanFrom text fuel (i + len)
      | none => scanFrom text fuel (i + 1)

/-- All general-price candidates harvested from rendered text by the loop of
source lines 196–204. -/
def collectTextPrices (text : List Char) : List ℚ :=
  scanFrom text (text.length + 1) 0

/-- The raw match list of the same scan: every `(index, capture)` the global
regex yields, before the installment filter. -/
def brlMatchesFrom (text : List Char) : Nat → Nat → List (Nat × List Char)
  | 0, _ => []
  | fuel + 1, i =>
    if text.length ≤ i then []
    else
      match brlMatchAt (text.drop i) with
      | some (cap, len) => (i, cap) :: brlMatchesFrom text fuel (i + len)
      | none => brlMatchesFrom text fuel (i + 1)

/-- All matches of the BRL price regex over `text`. -/
def brlMatches (text : List Char) : List (Nat × List Char) :=
  brlMatchesFrom text (text.length + 1) 0

/-- `Math.min(...candidates)` over a nonempty candidate list. -/
def foldlMin (x : ℚ) (xs : List ℚ) : ℚ :=
  xs.foldl min x

/-- The layered reconciliation rule of `extractFromProductPage` (source lines
206–208): the minimum of the sale-tagged candidates when any exist, else the
minimum of the general candidates when any exist, else `null`. -/
def resolvePriceNum : List ℚ → List ℚ → Option ℚ
  | s :: ss, _ => some (foldlMin s ss)
  | [], g :: gs => some (foldlMin g gs)
  | [], [] => none

example : resolvePriceNum [80] [120] = some 80 := by decide
example : resolvePriceNum [] [120, 99] = some 99 := by decide
example : resolvePriceNum [] [] = none := by decide

/-- A `{name, url}` pair produced by `extractFromListing`. -/
structure ListingEntry where
  name : List Char
  url : List Char
deriving DecidableEq

/-- The `{name, price, priceNum}` record returned by
`extractFromProductPage`; `name`, `price` are `null` or nonempty strings and
`priceNum` is `null` or a number. -/
structure DetResult where
  name : Option (List Char)
  price : Option (List Char)
  priceNum : Option ℚ
deriving DecidableEq

/-- An entry of the `found` map during a refresh cycle: a listing-derived
name and url, with `price`/`priceValue` possibly filled in by the detail
pass. -/
structure FoundProduct where
  name : List Char
  price : Option (List Char)
  priceValue : Option ℚ
  url : List Char
deriving DecidableEq

/-- A retained catalog product (an element of `CACHE.products` after the
filter of source line 95, which guarantees a nonempty name and a numeric
`priceValue`). -/
structure Product where
  name : List Char
  url : List Char
  price : List Char
  priceValue : ℚ
  normName : List Char
deriving DecidableEq

/-- The shape returned by `findMatches` after stripping the internal `_score`
and `normName` fields (source line 288). -/
structure MatchOut where
  name : List Char
  url : List Char
  price : List Char
  priceValue : ℚ
deriving DecidableEq

/-- The process-wide cache `CACHE = { products, lastScrape }`. -/
structure CacheState where
  products : List Product
  lastScrape : ℤ
deriving DecidableEq

/-- The snapshot construction of source lines 94–101.  The JS filters on
`p.name && p.priceValue != null` and then maps; since the filter guarantees a
present `priceValue`, the `??` fallbacks of the map are dead on the `none`
side and the combined step is this `filterMap`: `price` falls back to
`fromNumberToBRL(priceValue)` when the detail pass produced no display
string, `priceValue` is kept, and `normName` is derived from `name`. -/
def buildSnapshot (found : List FoundProduct) : List Product :=
  found.filterMap (fun p =>
    if p.name ≠ [] then
      p.priceValue.map (fun v =>
        { name := p.name, url := p.url,
          price := p.price.getD (fromNumberToBRL v),
          priceValue := v, normName := normalize p.name })
    else none)

/-- `found.set(p.url, p)` on the insertion-ordered JS `Map`: overwrite the
entry with the same key in place, else append. -/
def upsertFound (acc : List FoundProduct) (p : FoundProduct) : List FoundProduct :=
  if acc.any (fun q => q.url = p.url) then
    acc.map (fun q => if q.url = p.url then p else q)
  else acc ++ [p]

/-- The per-detail-URL merge of source lines 86–88: overwrite `name`, `price`
and `priceValue` only with truthy (for `priceNum`, non-`null`) detail
values. -/
def mergeDetail (p : FoundProduct) (det : DetResult) : FoundProduct :=
  { p with
    name := match det.name with
      | some n => if n ≠ [] then n else p.name
      | none => p.name,
    price := match det.price with
      | some pr => if pr ≠ [] then some pr else p.price
      | none => p.price,
    priceValue := match det.priceNum with
      | some v => some v
      | none => p.priceValue }

/-- The listing phase of a refresh cycle (source lines 66–75): each listing
URL's fetch result (`none` is a failed fetch, caught and skipped) contributes
its extracted `{name, url}` entries to the url-keyed `found` map. -/
def collectFound (extractListing : List Char → List ListingEntry) :
    List (Option (List Char)) → List FoundProduct → List FoundProduct
  | [], acc => acc
  | h? :: rest, acc =>
    collectFound extractListing rest
      (match h? with
       | none => acc
       | some h => (extractListing h).foldl
           (fun a e => upsertFound a ⟨e.name, none, none, e.url⟩) acc)

/-- The detail phase of a refresh cycle (source lines 77–92): each found
entry is refined by its product page when the fetch succeeds; failures are
swallowed, leaving the listing-derived entry.  The bounded-concurrency
batching only schedules these per-URL merges, each of which touches exactly
its own entry, so the final map is their order-independent result. -/
def detailPass (extractDetail : List Char → List Char → DetResult)
    (detailHTML : List Char → Option (List Char))
    (found : List FoundProduct) : List FoundProduct :=
  found.map (fun p =>
    match detailHTML p.url with
    | none => p
    | some h => mergeDetail p (extractDetail h p.url))

/-- A refresh cycle (source lines 63–102).  The two page extractors are
passed as parameters: their regex internals are modelled separately and no
claim about the cycle depends on them.  The second component counts fetches:
one per configured listing URL plus one per discovered product URL. -/
def refreshCycle (extractListing : List Char → List ListingEntry)
    (extractDetail : List Char → List Char → DetResult)
    (listingHTML : List (Option (List Char)))
    (detailHTML : List Char → Option (List Char))
    (now : ℤ) : CacheState × Nat :=
  let found := collectFound extractListing listingHTML []
  (⟨buildSnapshot (detailPass extractDetail detailHTML found), now⟩,
    listingHTML.length + found.length)

/-- `ensureCatalog(force)` (source lines 58–103): with a fresh, nonempty
cache and no forced refresh it returns immediately (no fetches, state
untouched); otherwise it runs a refresh cycle.  `MAX_AGE_MS` is one hour and
`stale` is `now - lastScrape > 3600000`. -/
def ensureCatalog (extractListing : List Char → List ListingEntry)
    (extractDetail : List Char → List Char → DetResult)
    (listingHTML : List (Option (List Char)))
    (detailHTML : List Char → Option (List Char))
    (force : Bool) (now : ℤ) (c : CacheState) : CacheState × Nat :=
  if force = false ∧ c.products ≠ [] ∧ ¬(now - c.lastScrape > 3600000) then
    (c, 0)
  else refreshCycle extractListing extractDetail listingHTML detailHTML now

/-- The stopword set `PT_STOP` (source lines 245–248, duplicate entry
included as written). -/
def PT_STOP : List (List Char) :=
  [str "o", str "a", str "os", str "as", str "um", str "uma", str "de",
   str "da", str "do", str "das", str "dos", str "que", str "qual",
   str "quais", str "quanto", str "quanta", str "preco", str "preço",
   str "custa", str "valor", str "tem", str "e", str "ou", str "mais",
   str "qual"]

/-- The ordered hard-filter category list `HARD_FILTERS` (source lines
250–253). -/
def HARD_FILTERS : List (List Char) :=
  [str "sapatenis", str "mocatenis", str "mocassim", str "bota",
   str "sandalia", str "tenis", str "camiseta", str "camisa", str "polo",
   str "regata", str "bermuda", str "calca"]

/-- The synonym map `SYN` (source lines 255–259). -/
def SYN : List (List Char × List Char) :=
  [(str "sapatenis", str "sapatennis"), (str "mocatenis", str "mocatennis"),
   (str "calca", str "calça")]

/-- `SYN.get(t)`. -/
def synLookup (t : List Char) : Option (List Char) :=
  (SYN.find? (fun e => e.1 = t)).map (fun e => e.2)

/-- JS `String.prototype.split(' ')`: split on each single space
character. -/
def splitOnSpace (l : List Char) : List (List Char) :=
  l.foldr (fun c acc =>
    if c = ' ' then [] :: acc
    else match acc with
      | [] => [[c]]
      | g :: gs => (c :: g) :: gs) [[]]

example : splitOnSpace (str "a bc") = [str "a", str "bc"] := by decide
example : splitOnSpace (str "") = [[]] := by decide

/-- The query tokens: normalized question split on spaces, dropping empty
tokens and stopwords (source lines 262–263). -/
def questionToks (question : List Char) : List (List Char) :=
  (splitOnSpace (normalize question)).filter
    (fun t => !t.isEmpty && !(PT_STOP.contains t))

/-- The token score of source lines 266–274: +2 when `normName` contains the
token, +1 more when the token has a distinct synonym also contained. -/
def scoreOf (toks : List (List Char)) (p : Product) : Nat :=
  toks.foldl (fun s t =>
    let t2 := (synLookup t).getD t
    let s1 := if containsSub t p.normName then s + 2 else s
    if t2 ≠ t && containsSub t2 p.normName then s1 + 1 else s1) 0

/-- The order induced by the sort comparator of source line 287,
`(a,b) => b._score - a._score || a.priceValue - b.priceValue`: higher score
first, ties by ascending price. -/
def rankRel (a b : Product × Nat) : Prop :=
  b.2 < a.2 ∨ (a.2 = b.2 ∧ a.1.priceValue ≤ b.1.priceValue)

instance : DecidableRel rankRel := fun a b => by
  unfold rankRel; infer_instance

instance : IsTotal (Product × Nat) rankRel := by
  constructor
  intro a b
  unfold rankRel
  rcases Nat.lt_trichotomy a.2 b.2 with h | h | h
  · exact Or.inr (Or.inl h)
  · rcases le_total a.1.priceValue b.1.priceValue with hp | hp
    · exact Or.inl (Or.inr ⟨h, hp⟩)
    · exact Or.inr (Or.inr ⟨h.symm, hp⟩)
  · exact Or.inl (Or.inl h)

instance : IsTrans (Product × Nat) rankRel := by
  constructor
  intro a b c hab hbc
  unfold rankRel at *
  rcases hab with h1 | ⟨h1, h1p⟩ <;> rcases hbc with h2 | ⟨h2, h2p⟩
  · exact Or.inl (h2.trans h1)
  · exact Or.inl (h2 ▸ h1)
  · exact Or.inl (h1 ▸ h2)
  · exact Or.inr ⟨h1.trans h2, h1p.trans h2p⟩

/-- The detected hard-filter category (source line 264): the first entry of
`HARD_FILTERS` occurring as a substring of the normalized question. -/
def hardOf (question : List Char) : Option (List Char) :=
  HARD_FILTERS.find? (fun h => containsSub h (normalize question))

/-- The scored candidates with zero-score products discarded (source lines
276–278). -/
def scoredCandidates (question : List Char) (catalog : List Product) :
    List (Product × Nat) :=
  (catalog.map (fun p => (p, scoreOf (questionToks question) p))).filter
    (fun x => decide (0 < x.2))

/-- The hard category filter (source lines 280–285): when a category was
detected, keep only products whose normalized name contains the category term
or its registered synonym. -/
def hardFilteredCandidates (question : List Char) (catalog : List Product) :
    List (Product × Nat) :=
  match hardOf question with
  | some h => (scoredCandidates question catalog).filter (fun x =>
      containsSub h x.1.normName ||
      containsSub ((synLookup h).getD h) x.1.normName)
  | none => scoredCandidates question catalog

/-- The scored, filtered, hard-filtered, sorted match list of `findMatches`
(source lines 261–287), before the `slice(0, 8)` and the field strip.  The
sort models the stable JS `Array.prototype.sort` on the line-287 comparator
as a stable insertion sort on `rankRel`. -/
def rankedMatches (question : List Char) (catalog : List Product) :
    List (Product × Nat) :=
  List.insertionSort rankRel (hardFilteredCandidates question catalog)

/-- The field strip of source line 288. -/
def stripFields (p : Product) : MatchOut :=
  ⟨p.name, p.url, p.price, p.priceValue⟩

/-- `findMatches(question, catalog)` (source lines 261–289). -/
def findMatches (question : List Char) (catalog : List Product) :
    List MatchOut :=
  ((rankedMatches question catalog).take 8).map (fun x => stripFields x.1)

/-- Match `a` then `\s*` then `b` at the head of `s` (all of `a`, `b` start
with non-whitespace characters, so the greedy whitespace skip is exact). -/
def matchGapAt (a b s : List Char) : Bool :=
  listStartsWith a s && listStartsWith b ((s.drop a.length).dropWhile isJsWs)

/-- Whether `a\s*b` occurs anywhere in `s`. -/
def containsGap (a b : List Char) : List Char → Bool
  | [] => matchGapAt a b []
  | c :: rest => matchGapAt a b (c :: rest) || containsGap a b rest

/-- `/quanto|preco|preço|custa|valor/i.test(question)` (source line 294). -/
def asksPrice (question : List Char) : Bool :=
  let q := question.map jsToLower
  containsSub (str "quanto") q || containsSub (str "preco") q ||
  containsSub (str "preço") q || containsSub (str "custa") q ||
  containsSub (str "valor") q

/-- `/mais\s*barat|minim|menor\s*pre[cç]o/i.test(question) || asksPrice`
(source line 295). -/
def wantsCheapest (question : List Char) : Bool :=
  let q := question.map jsToLower
  containsGap (str "mais") (str "barat") q || containsSub (str "minim") q ||
  containsGap (str "menor") (str "preco") q ||
  containsGap (str "menor") (str "preço") q || asksPrice question

/-- `/mais\s*cara|mais\s*caro|maior\s*pre[cç]o|mais\s*caras/i.test(question)`
(source line 296). -/
def wantsMostExp (question : List Char) : Bool :=
  let q := question.map jsToLower
  containsGap (str "mais") (str "cara") q ||
  containsGap (str "mais") (str "caro") q ||
  containsGap (str "maior") (str "preco") q ||
  containsGap (str "maior") (str "preço") q ||
  containsGap (str "mais") (str "caras") q

/-- The reducer of source line 299, `(a,b) => a.priceValue > b.priceValue ?
a : b`: keeps the accumulator only when it is strictly more expensive, so an
equally-priced later element replaces it. -/
def maxF (a b : MatchOut) : MatchOut :=
  if b.priceValue < a.priceValue then a else b

/-- The reducer of source line 300, `(a,b) => a.priceValue < b.priceValue ?
a : b`. -/
def minF (a b : MatchOut) : MatchOut :=
  if a.priceValue < b.priceValue then a else b

/-- The pick of source lines 298–300 on a nonempty match list `m0 :: rest`
(`matches.reduce` without an initial value folds from the first element). -/
def answerPick (question : List Char) (m0 : MatchOut) (rest : List MatchOut) :
    MatchOut :=
  if wantsMostExp question then rest.foldl maxF m0
  else if wantsCheapest question then rest.foldl minF m0
  else m0

/-- `makeDeterministicAnswer(question, matches)` (source lines 291–314). -/
def makeDeterministicAnswer (question : List Char)
    (ms : List MatchOut) : List Char :=
  match ms with
  | [] => str "Não achei esse item agora no catálogo público da diRavena."
  | m0 :: rest =>
    let pick := answerPick question m0 rest
    if wantsMostExp question || wantsCheapest question ||
        asksPrice question then
      str "Encontrei algumas opções. A mais barata é:" ++ nlChar ::
        (pick.name ++ str " — " ++ pick.price) ++ nlChar :: pick.url
    else
      List.intercalate [nlChar]
        (str "Encontrei essas opções:" ::
          ((m0 :: rest).take 3).map
            (fun m => m.name ++ str " — " ++ m.price ++ nlChar :: m.url))

/-- The blue trainers product of the spec's worked example (§8), as a
post-refresh catalog entry. -/
def azulProduct : Product :=
  { name := str "Sapatênis Azul",
    url := str "https://diravena.com/products/sapatenis-azul",
    price := str "R$ 100,00", priceValue := 100,
    normName := normalize (str "Sapatênis Azul") }

/-- The green trainers product of the spec's worked example (§8). -/
def verdeProduct : Product :=
  { name := str "Sapatênis Verde",
    url := str "https://diravena.com/products/sapatenis-verde",
    price := str "R$ 80,00", priceValue := 80,
    normName := normalize (str "Sapatênis Verde") }

/-- The two-product catalog of the spec's worked example (§8). -/
def exampleCatalog : List Product := [azulProduct, verdeProduct]

/-! ### Lemmas about the fold-based minimum -/

theorem foldlMin_mem : ∀ (xs : List ℚ) (a : ℚ), foldlMin a xs = a ∨ foldlMin a xs ∈ xs := by
  intro xs
  induction xs with
  | nil => intro a; exact Or.inl rfl
  | cons x xs ih =>
    intro a
    have h := ih (min a x)
    have hfold : foldlMin a (x :: xs) = foldlMin (min a x) xs := rfl
    rcases h with h | h
    · rcases le_total a x with hax | hax
      · left; rw [hfold, h, min_eq_left hax]
      · right; rw [hfold, h, min_eq_right hax]
        exact List.mem_cons_self _ _
    · right; exact List.mem_cons_of_mem _ h

theorem foldlMin_le : ∀ (xs : List ℚ) (a : ℚ),
    foldlMin a xs ≤ a ∧ ∀ x ∈ xs, foldlMin a xs ≤ x := by
  intro xs
  induction xs with
  | nil => intro a; exact ⟨le_refl a, by intro x hx; cases hx⟩
  | cons x xs ih =>
    intro a
    have h := ih (min a x)
    have hfold : foldlMin a (x :: xs) = foldlMin (min a x) xs := rfl
    refine ⟨?_, ?_⟩
    · rw [hfold]; exact h.1.trans (min_le_left a x)
    · intro y hy
      rcases List.mem_cons.mp hy with rfl | hy
      · rw [hfold]; exact h.1.trans (min_le_right a y)
      · rw [hfold]; exact h.2 y hy

/-- C1: for every product page extraction, the resolved canonical price obeys
the layered reconciliation rule of `extractFromProductPage` (source lines
206–211): with at least one sale-tagged candidate the result is the minimum
of the sale-tagged candidates; otherwise, with at least one general
candidate, the minimum of the general candidates; with neither, the resolved
price is `null` (`none`), not an error. -/
theorem c1_layered_reconciliation (sale general : List ℚ) :
    (sale = [] → general = [] → resolvePriceNum sale general = none) ∧
    (sale ≠ [] → ∃ m, resolvePriceNum sale general = some m ∧ m ∈ sale ∧
      ∀ x ∈ sale, m ≤ x) ∧
    (sale = [] → general ≠ [] → ∃ m, resolvePriceNum sale general = some m ∧
      m ∈ general ∧ ∀ x ∈ general, m ≤ x) := by
  refine ⟨?_, ?_, ?_⟩
  · rintro rfl rfl; rfl
  · intro hs
    match sale with
    | [] => exact absurd rfl hs
    | s :: ss =>
      refine ⟨foldlMin s ss, rfl, ?_, ?_⟩
      · rcases foldlMin_mem ss s with h | h
        · rw [h]; exact List.mem_cons_self _ _
        · exact List.mem_cons_of_mem _ h
      · intro x hx
        rcases List.mem_cons.mp hx with rfl | hx
        · exact (foldlMin_le ss x).1
        · exact (foldlMin_le ss s).2 x hx
  · rintro rfl hg
    match general with
    | [] => exact absurd rfl hg
    | g :: gs =>
      refine ⟨foldlMin g gs, rfl, ?_, ?_⟩
      · rcases foldlMin_mem gs g with h | h
        · rw [h]; exact List.mem_cons_self _ _
        · exact List.mem_cons_of_mem _ h
      · intro x hx
        rcases List.mem_cons.mp hx with rfl | hx
        · exact (foldlMin_le gs x).1
        · exact (foldlMin_le gs g).2 x hx

/-- Witness for C1 at the spec's own example (§8): one sale candidate `80`
and one general candidate `120` resolve to `80`. -/
theorem c1_layered_reconciliation_witness :
    ∃ m, resolvePriceNum [(80 : ℚ)] [(120 : ℚ)] = some m ∧ m ∈ [(80 : ℚ)] ∧
      ∀ x ∈ [(80 : ℚ)], m ≤ x :=
  (c1_layered_reconciliation [(80 : ℚ)] [(120 : ℚ)]).2.1 (by decide)

/-! ### C2: the retention invariant of the snapshot construction -/

/-- C2: a product of the `found` map appears in the post-refresh catalog
snapshot (identified by its URL, the map key) if and only if it has a
non-empty name and a resolved numeric `priceValue`; in particular an entry
with a name but no resolved price is silently absent — `buildSnapshot` is a
total function and produces no error for dropped entries. -/
theorem c2_retention_invariant (found : List FoundProduct)
    (hnd : (found.map FoundProduct.url).Nodup)
    (p : FoundProduct) (hp : p ∈ found) :
    (∃ q ∈ buildSnapshot found, q.url = p.url) ↔
      (p.name ≠ [] ∧ p.priceValue ≠ none) := by
  constructor
  · rintro ⟨q, hq, hqu⟩
    rcases List.mem_filterMap.mp hq with ⟨p', hp', hf⟩
    by_cases hn : p'.name ≠ []
    · rw [if_pos hn] at hf
      rcases hv' : p'.priceValue with _ | v
      · rw [hv'] at hf; cases hf
      · rw [hv'] at hf
        simp only [Option.map_some'] at hf
        have hq' := Option.some.inj hf
        have hurl : p'.url = p.url := by
          have := congrArg Product.url hq'; simpa using this.trans hqu
        have hpp : p' = p :=
          List.inj_on_of_nodup_map hnd hp' hp hurl
        subst hpp
        exact ⟨hn, by rw [hv']; exact fun h => Option.noConfusion h⟩
    · simp only [if_neg hn] at hf; cases hf
  · rintro ⟨hn, hv⟩
    rcases Option.ne_none_iff_exists.mp hv with ⟨v, hv'⟩
    refine ⟨{ name := p.name, url := p.url,
              price := p.price.getD (fromNumberToBRL v),
              priceValue := v, normName := normalize p.name }, ?_, rfl⟩
    exact List.mem_filterMap.mpr ⟨p, hp, by rw [if_pos hn, ← hv']; rfl⟩

/-- A found-map entry with both a name and a resolved price. -/
def sampleFoundPriced : FoundProduct :=
  ⟨str "Sapatênis Azul", some (str "R$ 100,00"), some 100, str "u1"⟩

/-- A found-map entry with a name but no resolved price. -/
def sampleFoundUnpriced : FoundProduct :=
  ⟨str "Bota Couro", none, none, str "u2"⟩

/-- A concrete found map exercising both sides of the invariant. -/
def sampleFound : List FoundProduct := [sampleFoundPriced, sampleFoundUnpriced]

/-- Witness for C2: in the concrete found map, the entry with a name but no
resolved price is absent from the snapshot. -/
theorem c2_retention_invariant_witness :
    ¬(∃ q ∈ buildSnapshot sampleFound, q.url = sampleFoundUnpriced.url) :=
  fun hex =>
    absurd ((c2_retention_invariant sampleFound (by decide)
      sampleFoundUnpriced (by decide)).mp hex) (by decide)

/-! ### C4 and C8: cache freshness and total listing failure -/

/-- C4: with a FRESH cache (age at most one hour and at least one product)
`ensureCatalog(false)` performs no fetches and returns the cache unchanged,
so two calls inside the freshness window do the network work only once; and
`ensureCatalog(true)` runs the refresh cycle on every cache state, fresh or
not. -/
theorem c4_freshness_noop
    (extL : List Char → List ListingEntry)
    (extD : List Char → List Char → DetResult)
    (lhtml : List (Option (List Char)))
    (dhtml : List Char → Option (List Char))
    (now : ℤ) (c : CacheState)
    (hfresh : now - c.lastScrape ≤ 3600000) (hne : c.products ≠ []) :
    ensureCatalog extL extD lhtml dhtml false now c = (c, 0) ∧
    ∀ c' : CacheState, ensureCatalog extL extD lhtml dhtml true now c' =
      refreshCycle extL extD lhtml dhtml now := by
  constructor
  · unfold ensureCatalog
    rw [if_pos ⟨rfl, hne, not_lt.mpr hfresh⟩]
  · intro c'
    unfold ensureCatalog
    rw [if_neg (fun h => Bool.noConfusion h.1)]

/-- A concrete fresh cache for the C4 witness. -/
def sampleFreshCache : CacheState := ⟨[azulProduct], 1000⟩

/-- Witness for C4 at a concrete fresh cache and fetch environment. -/
theorem c4_freshness_noop_witness :
    ensureCatalog (fun _ => []) (fun _ _ => ⟨none, none, none⟩) []
      (fun _ => none) false 2000 sampleFreshCache = (sampleFreshCache, 0) :=
  (c4_freshness_noop (fun _ => []) (fun _ _ => ⟨none, none, none⟩) []
    (fun _ => none) 2000 sampleFreshCache (by decide) (by decide)).1

/-- C8: when every configured listing fetch fails, the refresh cycle still
completes normally (the model is a total function; per-URL failures are
caught) and produces the empty catalog with a stamped timestamp — zero
products, not an exception; the fetch count is the listing attempts alone. -/
theorem c8_total_listing_failure
    (extL : List Char → List ListingEntry)
    (extD : List Char → List Char → DetResult)
    (lhtml : List (Option (List Char)))
    (dhtml : List Char → Option (List Char))
    (now : ℤ) (h : ∀ x ∈ lhtml, x = none) :
    refreshCycle extL extD lhtml dhtml now = (⟨[], now⟩, lhtml.length) := by
  have key : ∀ (l : List (Option (List Char))) (acc : List FoundProduct),
      (∀ x ∈ l, x = none) → collectFound extL l acc = acc := by
    intro l
    induction l with
    | nil => intro acc _; rfl
    | cons x xs ih =>
      intro acc hall
      have hx := hall x (List.mem_cons_self _ _)
      subst hx
      exact ih acc (fun y hy => hall y (List.mem_cons_of_mem _ hy))
  unfold refreshCycle
  rw [key lhtml [] h]
  rfl

/-- Witness for C8: all four configured listing fetches fail. -/
theorem c8_total_listing_failure_witness :
    refreshCycle (fun _ => []) (fun _ _ => ⟨none, none, none⟩)
      [none, none, none, none] (fun _ => none) 5000 =
      (⟨[], 5000⟩, 4) :=
  c8_total_listing_failure (fun _ => []) (fun _ _ => ⟨none, none, none⟩)
    [none, none, none, none] (fun _ => none) 5000 (by decide)

/-! ### C3: shape of the matcher output -/

theorem mem_hardFiltered_mem_scored {q : List Char} {c : List Product}
    {x : Product × Nat} (hx : x ∈ hardFilteredCandidates q c) :
    x ∈ scoredCandidates q c := by
  unfold hardFilteredCandidates at hx
  rcases hh : hardOf q with _ | h <;> rw [hh] at hx
  · exact hx
  · exact List.mem_of_mem_filter hx

theorem mem_rankedMatches_mem_scored {q : List Char} {c : List Product}
    {x : Product × Nat} (hx : x ∈ rankedMatches q c) :
    x ∈ scoredCandidates q c :=
  mem_hardFiltered_mem_scored
    ((List.perm_insertionSort rankRel (hardFilteredCandidates q c)).mem_iff.mp hx)

/-- C3: for every question and catalog, the ranked list underlying
`findMatches` contains only positively scored products, is sorted by the
comparator order (descending score, ties by ascending price), and the
returned list has at most 8 entries; on the spec's two-product catalog with
the question `qual sapatênis mais barato`, both trainers survive the hard
filter with equal positive scores and Verde (80) ranks before Azul (100). -/
theorem c3_matcher_shape (q : List Char) (c : List Product) :
    (∀ x ∈ rankedMatches q c, 0 < x.2) ∧
    List.Sorted rankRel (rankedMatches q c) ∧
    (findMatches q c).length ≤ 8 ∧
    rankedMatches (str "qual sapatênis mais barato") exampleCatalog =
      [(verdeProduct, 2), (azulProduct, 2)] ∧
    findMatches (str "qual sapatênis mais barato") exampleCatalog =
      [stripFields verdeProduct, stripFields azulProduct] := by
  refine ⟨?_, ?_, ?_, by decide, by decide⟩
  · intro x hx
    have hmem := mem_rankedMatches_mem_scored hx
    have := List.of_mem_filter hmem
    exact of_decide_eq_true this
  · exact List.sorted_insertionSort rankRel _
  · unfold findMatches
    rw [List.length_map]
    exact (List.length_take_le 8 (rankedMatches q c))

/-- Witness for C3 applying the positivity conjunct to the concrete ranked
example. -/
theorem c3_matcher_shape_witness : 0 < (verdeProduct, 2).2 :=
  (c3_matcher_shape (str "qual sapatênis mais barato") exampleCatalog).1
    (verdeProduct, 2) (by decide)

/-! ### C10: hard-filter detection and application are substring based -/

theorem find?_eq_some_split {α : Type} (p : α → Bool) :
    ∀ {l : List α} {a : α}, l.find? p = some a →
      p a = true ∧ ∃ pre post, l = pre ++ a :: post ∧
        ∀ b ∈ pre, p b = false := by
  intro l
  induction l with
  | nil => intro a h; cases h
  | cons x xs ih =>
    intro a h
    by_cases hx : p x = true
    · rw [List.find?_cons_of_pos _ hx] at h
      cases h
      exact ⟨hx, [], xs, rfl, by intro b hb; cases hb⟩
    · have hx' : p x = false := by simpa using hx
      rw [List.find?_cons_of_neg _ (by simpa using hx)] at h
      obtain ⟨hpa, pre, post, rfl, hpre⟩ := ih h
      refine ⟨hpa, x :: pre, post, rfl, ?_⟩
      intro b hb
      rcases List.mem_cons.mp hb with rfl | hb
      · exact hx'
      · exact hpre b hb

/-- A camiseta product, for the hard-filter analysis. -/
def camisetaProduct : Product :=
  { name := str "Camiseta Azul",
    url := str "https://diravena.com/products/camiseta-azul",
    price := str "R$ 90,00", priceValue := 90,
    normName := normalize (str "Camiseta Azul") }

/-- Counterexample for C10 as stated: the question `camisa azul` detects the
hard category `camisa`, the product `Camiseta Azul` scores positively (its
name contains the token `azul`) and its name contains `camiseta`, yet
`findMatches` returns nothing — the category `camisa` does not retain
products whose name only contains `camiseta`, because `camisa` is not a
substring of `camiseta`. -/
theorem c10_counterexample :
    hardOf (str "camisa azul") = some (str "camisa") ∧
    containsSub (str "camiseta") camisetaProduct.normName = true ∧
    0 < scoreOf (questionToks (str "camisa azul")) camisetaProduct ∧
    findMatches (str "camisa azul") [camisetaProduct] = [] := by decide

/-- C10 (amended): category detection takes the first entry of the fixed
ordered `HARD_FILTERS` list whose term occurs anywhere inside the normalized
question (so `sapatenis` beats `tenis` purely by list position), and a
product passes the filter only when the detected term or its registered
synonym occurs anywhere inside the product's normalized name; in particular
the category `camisa` does not retain a product named only `camiseta`, since
`camisa` is not a substring of `camiseta` (see the counterexample). -/
theorem c10_hard_filter_substring (q : List Char) (c : List Product) :
    (∀ h, hardOf q = some h →
      containsSub h (normalize q) = true ∧
      ∃ pre post, HARD_FILTERS = pre ++ h :: post ∧
        ∀ h' ∈ pre, containsSub h' (normalize q) = false) ∧
    (∀ h x, hardOf q = some h → x ∈ rankedMatches q c →
      (containsSub h x.1.normName ||
        containsSub ((synLookup h).getD h) x.1.normName) = true) ∧
    hardOf (str "quero um sapatenis") = some (str "sapatenis") ∧
    containsSub (str "tenis") (normalize (str "quero um sapatenis")) = true ∧
    containsSub (str "camisa") (str "camiseta") = false := by
  refine ⟨?_, ?_, by decide, by decide, by decide⟩
  · intro h hh
    exact find?_eq_some_split _ hh
  · intro h x hh hx
    have hmem :=
      (List.perm_insertionSort rankRel (hardFilteredCandidates q c)).mem_iff.mp hx
    unfold hardFilteredCandidates at hmem
    rw [hh] at hmem
    have hmem' : x ∈ (scoredCandidates q c).filter (fun y =>
        containsSub h y.1.normName ||
        containsSub ((synLookup h).getD h) y.1.normName) := hmem
    exact (List.mem_filter.mp hmem').2

/-- Witness for C10 (amended), applying the detection conjunct at the
concrete question `quero um sapatenis`. -/
theorem c10_hard_filter_substring_witness :
    containsSub (str "sapatenis") (normalize (str "quero um sapatenis")) = true ∧
    ∃ pre post, HARD_FILTERS = pre ++ (str "sapatenis") :: post ∧
      ∀ h' ∈ pre, containsSub h' (normalize (str "quero um sapatenis")) = false :=
  (c10_hard_filter_substring (str "quero um sapatenis") []).1
    (str "sapatenis") (by decide)

/-! ### C5: the answer composer's pick -/

theorem foldl_maxF_split : ∀ (l : List MatchOut) (a : MatchOut),
    ∃ u v, a :: l = u ++ (l.foldl maxF a) :: v ∧
      (∀ x ∈ u, x.priceValue ≤ (l.foldl maxF a).priceValue) ∧
      (∀ x ∈ v, x.priceValue < (l.foldl maxF a).priceValue) := by
  intro l
  induction l with
  | nil =>
    intro a
    refine ⟨[], [], rfl, ?_, ?_⟩ <;> intro x hx <;> cases hx
  | cons b l ih =>
    intro a
    by_cases hab : b.priceValue < a.priceValue
    · have hgoal : (b :: l).foldl maxF a = l.foldl maxF a := by
        show l.foldl maxF (maxF a b) = l.foldl maxF a
        rw [maxF, if_pos hab]
      rw [hgoal]
      obtain ⟨u, v, hsplit, hu, hv⟩ := ih a
      cases u with
      | nil =>
        simp only [List.nil_append] at hsplit
        have h1 : a = l.foldl maxF a := (List.cons.inj hsplit).1
        have h2 : l = v := (List.cons.inj hsplit).2
        refine ⟨[], b :: l, ?_, ?_, ?_⟩
        · rw [List.nil_append, ← h1]
        · intro x hx; cases hx
        · intro x hx
          rcases List.mem_cons.mp hx with rfl | hx
          · rw [← h1]; exact hab
          · exact hv x (h2 ▸ hx)
      | cons a' u'' =>
        rw [List.cons_append] at hsplit
        have h1 : a = a' := (List.cons.inj hsplit).1
        subst h1
        have h2 : l = u'' ++ (l.foldl maxF a) :: v := (List.cons.inj hsplit).2
        refine ⟨a :: b :: u'', v, ?_, ?_, hv⟩
        · rw [List.cons_append, List.cons_append, ← h2]
        · intro x hx
          rcases List.mem_cons.mp hx with rfl | hx
          · exact hu x (List.mem_cons_self _ _)
          rcases List.mem_cons.mp hx with rfl | hx
          · exact (le_of_lt hab).trans (hu a (List.mem_cons_self _ _))
          · exact hu x (List.mem_cons_of_mem _ hx)
    · have hab' : a.priceValue ≤ b.priceValue := le_of_not_lt hab
      have hgoal : (b :: l).foldl maxF a = l.foldl maxF b := by
        show l.foldl maxF (maxF a b) = l.foldl maxF b
        rw [maxF, if_neg hab]
      rw [hgoal]
      obtain ⟨u, v, hsplit, hu, hv⟩ := ih b
      cases u with
      | nil =>
        simp only [List.nil_append] at hsplit
        have h1 : b = l.foldl maxF b := (List.cons.inj hsplit).1
        have h2 : l = v := (List.cons.inj hsplit).2
        refine ⟨[a], l, ?_, ?_, ?_⟩
        · rw [List.cons_append, List.nil_append, ← h1]
        · intro x hx
          rcases List.mem_cons.mp hx with rfl | hx
          · rw [← h1]; exact hab'
          · cases hx
        · intro x hx
          exact hv x (h2 ▸ hx)
      | cons b' u'' =>
        rw [List.cons_append] at hsplit
        have h1 : b = b' := (List.cons.inj hsplit).1
        subst h1
        have h2 : l = u'' ++ (l.foldl maxF b) :: v := (List.cons.inj hsplit).2
        refine ⟨a :: b :: u'', v, ?_, ?_, hv⟩
        · rw [List.cons_append, List.cons_append, ← h2]
        · intro x hx
          rcases List.mem_cons.mp hx with rfl | hx
          · exact hab'.trans (hu b (List.mem_cons_self _ _))
          rcases List.mem_cons.mp hx with rfl | hx
          · exact hu x (List.mem_cons_self _ _)
          · exact hu x (List.mem_cons_of_mem _ hx)

theorem foldl_minF_split : ∀ (l : List MatchOut) (a : MatchOut),
    ∃ u v, a :: l = u ++ (l.foldl minF a) :: v ∧
      (∀ x ∈ u, (l.foldl minF a).priceValue ≤ x.priceValue) ∧
      (∀ x ∈ v, (l.foldl minF a).priceValue < x.priceValue) := by
  intro l
  induction l with
  | nil =>
    intro a
    refine ⟨[], [], rfl, ?_, ?_⟩ <;> intro x hx <;> cases hx
  | cons b l ih =>
    intro a
    by_cases hab : a.priceValue < b.priceValue
    · have hgoal : (b :: l).foldl minF a = l.foldl minF a := by
        show l.foldl minF (minF a b) = l.foldl minF a
        rw [minF, if_pos hab]
      rw [hgoal]
      obtain ⟨u, v, hsplit, hu, hv⟩ := ih a
      cases u with
      | nil =>
        simp only [List.nil_append] at hsplit
        have h1 : a = l.foldl minF a := (List.cons.inj hsplit).1
        have h2 : l = v := (List.cons.inj hsplit).2
        refine ⟨[], b :: l, ?_, ?_, ?_⟩
        · rw [List.nil_append, ← h1]
        · intro x hx; cases hx
        · intro x hx
          rcases List.mem_cons.mp hx with rfl | hx
          · rw [← h1]; exact hab
          · exact hv x (h2 ▸ hx)
      | cons a' u'' =>
        rw [List.cons_append] at hsplit
        have h1 : a = a' := (List.cons.inj hsplit).1
        subst h1
        have h2 : l = u'' ++ (l.foldl minF a) :: v := (List.cons.inj hsplit).2
        refine ⟨a :: b :: u'', v, ?_, ?_, hv⟩
        · rw [List.cons_append, List.cons_append, ← h2]
        · intro x hx
          rcases List.mem_cons.mp hx with rfl | hx
          · exact hu x (List.mem_cons_self _ _)
          rcases List.mem_cons.mp hx with rfl | hx
          · exact (hu a (List.mem_cons_self _ _)).trans (le_of_lt hab)
          · exact hu x (List.mem_cons_of_mem _ hx)
    · have hab' : b.priceValue ≤ a.priceValue := le_of_not_lt hab
      have hgoal : (b :: l).foldl minF a = l.foldl minF b := by
        show l.foldl minF (minF a b) = l.foldl minF b
        rw [minF, if_neg hab]
      rw [hgoal]
      obtain ⟨u, v, hsplit, hu, hv⟩ := ih b
      cases u with
      | nil =>
        simp only [List.nil_append] at hsplit
        have h1 : b = l.foldl minF b := (List.cons.inj hsplit).1
        have h2 : l = v := (List.cons.inj hsplit).2
        refine ⟨[a], l, ?_, ?_, ?_⟩
        · rw [List.cons_append, List.nil_append, ← h1]
        · intro x hx
          rcases List.mem_cons.mp hx with rfl | hx
          · rw [← h1]; exact hab'
          · cases hx
        · intro x hx
          exact hv x (h2 ▸ hx)
      | cons b' u'' =>
        rw [List.cons_append] at hsplit
        have h1 : b = b' := (List.cons.inj hsplit).1
        subst h1
        have h2 : l = u'' ++ (l.foldl minF b) :: v := (List.cons.inj hsplit).2
        refine ⟨a :: b :: u'', v, ?_, ?_, hv⟩
        · rw [List.cons_append, List.cons_append, ← h2]
        · intro x hx
          rcases List.mem_cons.mp hx with rfl | hx
          · exact (hu b (List.mem_cons_self _ _)).trans hab'
          rcases List.mem_cons.mp hx with rfl | hx
          · exact hu x (List.mem_cons_self _ _)
          · exact hu x (List.mem_cons_of_mem _ hx)

/-- Two equally priced matches, for the tie-breaking analysis of the answer
composer's reducers. -/
def tieFirstMatch : MatchOut := ⟨str "Bota Preta", str "u1", str "R$ 50,00", 50⟩

/-- The later of the two equally priced matches. -/
def tieSecondMatch : MatchOut := ⟨str "Bota Marrom", str "u2", str "R$ 50,00", 50⟩

/-- Counterexample for C5 as stated: on a wants-most-expensive question with
two equally priced matches, the reducer of source line 299 keeps the
accumulator only when it is strictly more expensive, so the pick is the
second (last) occurrence, not the first. -/
theorem c5_counterexample :
    wantsMostExp (str "qual o mais caro") = true ∧
    tieFirstMatch.priceValue = tieSecondMatch.priceValue ∧
    answerPick (str "qual o mais caro") tieFirstMatch [tieSecondMatch] =
      tieSecondMatch ∧
    tieSecondMatch ≠ tieFirstMatch := by decide

/-- C5 (amended): for every non-empty match list and question, if the
question expresses wants-most-expensive intent the picked product is a match
of maximal `priceValue` with the last occurrence winning ties (everything
after the pick is strictly cheaper, everything before is at most as
expensive); otherwise, under wants-cheapest or price-asking intent, the pick
is a match of minimal `priceValue`, again with the last occurrence winning
ties; and on the spec's catalog with the question `quanto custa um
sapatênis` the composed baseline names `Sapatênis Verde — R$ 80,00`. -/
theorem c5_intent_pick (q : List Char) (m0 : MatchOut) (rest : List MatchOut) :
    (wantsMostExp q = true →
      ∃ u v, m0 :: rest = u ++ answerPick q m0 rest :: v ∧
        (∀ x ∈ u, x.priceValue ≤ (answerPick q m0 rest).priceValue) ∧
        (∀ x ∈ v, x.priceValue < (answerPick q m0 rest).priceValue)) ∧
    (wantsMostExp q = false → wantsCheapest q = true →
      ∃ u v, m0 :: rest = u ++ answerPick q m0 rest :: v ∧
        (∀ x ∈ u, (answerPick q m0 rest).priceValue ≤ x.priceValue) ∧
        (∀ x ∈ v, (answerPick q m0 rest).priceValue < x.priceValue)) ∧
    makeDeterministicAnswer (str "quanto custa um sapatênis")
        (findMatches (str "quanto custa um sapatênis") exampleCatalog) =
      str "Encontrei algumas opções. A mais barata é:" ++ nlChar ::
        (str "Sapatênis Verde — R$ 80,00") ++ nlChar ::
        str "https://diravena.com/products/sapatenis-verde" := by
  refine ⟨?_, ?_, by decide⟩
  · intro hexp
    have hpick : answerPick q m0 rest = rest.foldl maxF m0 := by
      unfold answerPick; rw [hexp]; rfl
    rw [hpick]
    exact foldl_maxF_split rest m0
  · intro hexp hch
    have hpick : answerPick q m0 rest = rest.foldl minF m0 := by
      unfold answerPick; rw [hexp, hch]; rfl
    rw [hpick]
    exact foldl_minF_split rest m0

/-- Witness for C5 (amended) at the concrete tie: the pick is the last
maximal match. -/
theorem c5_intent_pick_witness :
    ∃ u v, tieFirstMatch :: [tieSecondMatch] = u ++
        answerPick (str "qual o mais caro") tieFirstMatch [tieSecondMatch] :: v ∧
      (∀ x ∈ u, x.priceValue ≤
        (answerPick (str "qual o mais caro") tieFirstMatch
          [tieSecondMatch]).priceValue) ∧
      (∀ x ∈ v, x.priceValue <
        (answerPick (str "qual o mais caro") tieFirstMatch
          [tieSecondMatch]).priceValue) :=
  (c5_intent_pick (str "qual o mais caro") tieFirstMatch [tieSecondMatch]).1
    (by decide)

/-! ### C6: installment exclusion in the text price scan -/

/-- The value a regex match contributes to the candidate list when it is not
installment-flagged: the parsed capture, when truthy. -/
def matchContribution (m : Nat × List Char) : Option ℚ :=
  match toNumberBRL m.2 with
  | some v => if v ≠ 0 then some v else none
  | none => none

theorem scanFrom_eq_filter (text : List Char) :
    ∀ (fuel i : Nat),
      scanFrom text fuel i =
        ((brlMatchesFrom text fuel i).filter
          (fun m => !installmentAt text m.1)).filterMap matchContribution := by
  intro fuel
  induction fuel with
  | zero => intro i; rfl
  | succ fuel ih =>
    intro i
    by_cases hlen : text.length ≤ i
    · simp only [scanFrom, brlMatchesFrom, if_pos hlen]
      rfl
    · simp only [scanFrom, brlMatchesFrom, if_neg hlen]
      cases hm : brlMatchAt (text.drop i) with
      | none => exact ih (i + 1)
      | some capLen =>
        obtain ⟨cap, len⟩ := capLen
        by_cases hin : installmentAt text i
        · simp only [List.filter_cons, hin, Bool.not_true, if_pos hin]
          simp [ih (i + len)]
        · have hin' : installmentAt text i = false := by simpa using hin
          cases hval : toNumberBRL cap with
          | none =>
            simp only [List.filter_cons, hin', Bool.not_false, if_neg hin]
            simp [List.filterMap_cons, matchContribution, hval, ih (i + len)]
          | some v =>
            by_cases hz : v ≠ 0
            · simp only [List.filter_cons, hin', Bool.not_false, if_neg hin]
              simp [List.filterMap_cons, matchContribution, hval, hz, ih (i + len)]
            · have hz' : v = 0 := by simpa using hz
              simp only [List.filter_cons, hin', Bool.not_false, if_neg hin]
              simp [List.filterMap_cons, matchContribution, hval, hz', ih (i + len)]

/-- C6: a price-like token whose 8-character lookbehind matches the
`<digits> x` installment pattern contributes no candidate while the same
token standing alone does: the scan of `10x R$ 15,99` yields no general
candidate, the scan of `R$ 15,99` yields `15.99`, and in general the scan
equals the non-installment matches' parsed contributions. -/
theorem c6_installment_exclusion :
    collectTextPrices (str "10x R$ 15,99") = [] ∧
    collectTextPrices (str "R$ 15,99") = [(1599 : ℚ) / 100] ∧
    ∀ (text : List Char) (fuel i : Nat),
      scanFrom text fuel i =
        ((brlMatchesFrom text fuel i).filter
          (fun m => !installmentAt text m.1)).filterMap matchContribution :=
  ⟨by decide, by decide, fun text => scanFrom_eq_filter text⟩

/-! ### C7: the price format/parse round trip -/

theorem digitVal_ofNat {d : Nat} (h : d < 10) :
    digitVal (Char.ofNat (48 + d)) = d := by
  interval_cases d <;> decide

theorem isAsciiDigit_ofNat {d : Nat} (h : d < 10) :
    isAsciiDigit (Char.ofNat (48 + d)) = true := by
  interval_cases d <;> decide

theorem natDigitsCore_all_digits :
    ∀ (fuel n : Nat), ∀ c ∈ natDigitsCore fuel n, isAsciiDigit c = true := by
  intro fuel
  induction fuel with
  | zero => intro n c hc; cases hc
  | succ fuel ih =>
    intro n c hc
    rw [natDigitsCore] at hc
    by_cases hn : n < 10
    · rw [if_pos hn] at hc
      rcases List.mem_cons.mp hc with rfl | hc
      · exact isAsciiDigit_ofNat hn
      · cases hc
    · rw [if_neg hn] at hc
      rcases List.mem_append.mp hc with hc | hc
      · exact ih (n / 10) c hc
      · rcases List.mem_cons.mp hc with rfl | hc
        · exact isAsciiDigit_ofNat (Nat.mod_lt n (by omega))
        · cases hc

theorem natDigits_all_digits (n : Nat) :
    ∀ c ∈ natDigits n, isAsciiDigit c = true :=
  natDigitsCore_all_digits (n + 1) n

theorem natDigitsCore_ne_nil (fuel n : Nat) :
    natDigitsCore (fuel + 1) n ≠ [] := by
  rw [natDigitsCore]
  by_cases hn : n < 10
  · rw [if_pos hn]; exact List.cons_ne_nil _ _
  · rw [if_neg hn]
    intro h
    exact absurd (List.append_eq_nil.mp h).2 (List.cons_ne_nil _ _)

theorem digitsToNat_append_singleton (l : List Char) (c : Char) :
    digitsToNat (l ++ [c]) = 10 * digitsToNat l + digitVal c := by
  simp [digitsToNat, List.foldl_append]

theorem digitsToNat_natDigitsCore :
    ∀ (fuel n : Nat), n < fuel → digitsToNat (natDigitsCore fuel n) = n := by
  intro fuel
  induction fuel with
  | zero => intro n h; omega
  | succ fuel ih =>
    intro n h
    rw [natDigitsCore]
    by_cases hn : n < 10
    · rw [if_pos hn]
      show 10 * 0 + digitVal (Char.ofNat (48 + n)) = n
      rw [digitVal_ofNat hn]
      omega
    · rw [if_neg hn]
      rw [digitsToNat_append_singleton]
      have hd : n / 10 < fuel := by
        have := Nat.div_lt_self (show 0 < n by omega) (show 1 < 10 by omega)
        omega
      rw [ih (n / 10) hd, digitVal_ofNat (Nat.mod_lt n (by omega))]
      omega

theorem digitsToNat_natDigits (n : Nat) : digitsToNat (natDigits n) = n :=
  digitsToNat_natDigitsCore (n + 1) n (Nat.lt_succ_self n)

theorem digitsToNat_pad2 {m : Nat} (h : m < 100) : digitsToNat (pad2 m) = m := by
  have h1 : m / 10 % 10 = m / 10 := Nat.mod_eq_of_lt (by omega)
  show 10 * (10 * 0 + digitVal (Char.ofNat (48 + m / 10 % 10))) +
      digitVal (Char.ofNat (48 + m % 10)) = m
  rw [digitVal_ofNat (by omega : m / 10 % 10 < 10),
    digitVal_ofNat (Nat.mod_lt m (by omega))]
  omega

theorem pad2_all_digits (m : Nat) : ∀ c ∈ pad2 m, isAsciiDigit c = true := by
  intro c hc
  rcases List.mem_cons.mp hc with rfl | hc
  · exact isAsciiDigit_ofNat (by omega)
  rcases List.mem_cons.mp hc with rfl | hc
  · exact isAsciiDigit_ofNat (Nat.mod_lt m (by omega))
  · cases hc

theorem isAsciiDigit_toNat {c : Char} (h : isAsciiDigit c = true) :
    48 ≤ c.toNat ∧ c.toNat ≤ 57 := by
  simp only [isAsciiDigit, Bool.and_eq_true, decide_eq_true_eq] at h
  exact h

theorem digit_ne_dot {c : Char} (h : isAsciiDigit c = true) : c ≠ '.' := by
  intro hc
  subst hc
  cases h

theorem digit_ne_comma {c : Char} (h : isAsciiDigit c = true) : c ≠ ',' := by
  intro hc
  subst hc
  cases h

theorem digit_not_ws {c : Char} (h : isAsciiDigit c = true) :
    isJsWs c = false := by
  have hb := isAsciiDigit_toNat h
  simp only [isJsWs, Bool.or_eq_false_iff, decide_eq_false_iff_not,
    Bool.and_eq_false_iff]
  omega

theorem dropWhile_eq_self_of_none (p : Char → Bool) :
    ∀ (l : List Char), (∀ c ∈ l, p c = false) → l.dropWhile p = l := by
  intro l h
  cases l with
  | nil => rfl
  | cons c rest =>
    rw [List.dropWhile_cons_of_neg]
    rw [h c (List.mem_cons_self _ _)]
    exact Bool.false_ne_true

theorem jsTrim_eq_self_of_no_ws (l : List Char)
    (h : ∀ c ∈ l, isJsWs c = false) : jsTrim l = l := by
  unfold jsTrim
  rw [dropWhile_eq_self_of_none _ l h,
    dropWhile_eq_self_of_none _ l.reverse
      (fun c hc => h c (List.mem_reverse.mp hc)),
    List.reverse_reverse]

theorem takeWhile_append_stop (p : Char → Bool) (x : Char) (r : List Char)
    (hx : p x = false) :
    ∀ (l : List Char), (∀ c ∈ l, p c = true) →
      (l ++ x :: r).takeWhile p = l ∧ (l ++ x :: r).dropWhile p = x :: r := by
  intro l
  induction l with
  | nil =>
    intro _
    constructor
    · rw [List.nil_append, List.takeWhile_cons_of_neg (by rw [hx]; exact Bool.false_ne_true)]
    · rw [List.nil_append, List.dropWhile_cons_of_neg (by rw [hx]; exact Bool.false_ne_true)]
  | cons c l ih =>
    intro h
    have hc := h c (List.mem_cons_self _ _)
    have ihl := ih (fun d hd => h d (List.mem_cons_of_mem _ hd))
    constructor
    · rw [List.cons_append, List.takeWhile_cons_of_pos hc, ihl.1]
    · rw [List.cons_append, List.dropWhile_cons_of_pos hc, ihl.2]

theorem replaceFirstComma_append (r : List Char) :
    ∀ (l : List Char), (∀ c ∈ l, c ≠ ',') →
      replaceFirstComma (l ++ ',' :: r) = l ++ '.' :: r := by
  intro l
  induction l with
  | nil => intro _; rfl
  | cons c l ih =>
    intro h
    rw [List.cons_append, replaceFirstComma,
      if_neg (h c (List.mem_cons_self _ _)), ih (fun d hd => h d (List.mem_cons_of_mem _ hd))]
    rfl

theorem replaceFirstDot_append (r : List Char) :
    ∀ (l : List Char), (∀ c ∈ l, c ≠ '.') →
      replaceFirstDot (l ++ '.' :: r) = l ++ ',' :: r := by
  intro l
  induction l with
  | nil => intro _; rfl
  | cons c l ih =>
    intro h
    rw [List.cons_append, replaceFirstDot,
      if_neg (h c (List.mem_cons_self _ _)), ih (fun d hd => h d (List.mem_cons_of_mem _ hd))]
    rfl

/-- Counterexample for C7 as stated: composing `parseLocalizedPrice` with
`formatPrice` directly — `toNumberBRL(fromNumberToBRL(v))` — fails even at
`v = 1`, because the formatter emits the fixed currency prefix `R$ ` and the
parser does not strip it, so `Number` sees `R$ 1.00` and yields `NaN`,
returned as `null`. -/
theorem c7_counterexample : toNumberBRL (fromNumberToBRL 1) = none := by decide

/-- C7 (amended): the round trip holds once the caller's prefix-stripping
step (`String(p.price).replace('R$','').trim()`, source line 99) sits between
the two: for every `v ≥ 0` with at most two fraction digits,
`toNumberBRL (trim (strip (fromNumberToBRL v))) = v`. -/
theorem c7_round_trip (v : ℚ) (h0 : 0 ≤ v) (h2 : (100 * v).den = 1) :
    toNumberBRL (jsTrim (removeFirstOcc (str "R$") (fromNumberToBRL v))) =
      some v := by
  -- The integer `n` with `100 * v = n`.
  have hnum0 : (0 : ℤ) ≤ (100 * v).num := Rat.num_nonneg.mpr (by positivity)
  set n : Nat := (100 * v).num.toNat with hn
  have hcast : ((100 * v).num : ℚ) = 100 * v := by
    rw [← Rat.den_eq_one_iff]; exact h2
  have hnq : ((n : ℤ) : ℚ) = 100 * v := by
    rw [hn, Int.toNat_of_nonneg hnum0, hcast]
  -- The formatted digits.
  have hfloor : (⌊100 * v + 1 / 2⌋).toNat = n := by
    rw [← hnq, Int.floor_int_add]
    norm_num
  have habs : toFixed2 v = natDigits (n / 100) ++ '.' :: pad2 (n % 100) := by
    rw [toFixed2, if_neg (not_lt.mpr h0), toFixed2Abs]
    rw [hfloor]
  -- Shift the decimal separator.
  have hdigits := natDigits_all_digits (n / 100)
  have hbrl : fromNumberToBRL v =
      'R' :: '$' :: ' ' :: (natDigits (n / 100) ++ ',' :: pad2 (n % 100)) := by
    rw [fromNumberToBRL, habs,
      replaceFirstDot_append _ _ (fun c hc => digit_ne_dot (hdigits c hc))]
    rfl
  -- Strip the prefix and trim.
  have hcore : ∀ c ∈ natDigits (n / 100) ++ ',' :: pad2 (n % 100),
      isJsWs c = false := by
    intro c hc
    rcases List.mem_append.mp hc with hc | hc
    · exact digit_not_ws (hdigits c hc)
    rcases List.mem_cons.mp hc with rfl | hc
    · decide
    · exact digit_not_ws (pad2_all_digits _ c hc)
  have hstrip : jsTrim (removeFirstOcc (str "R$") (fromNumberToBRL v)) =
      natDigits (n / 100) ++ ',' :: pad2 (n % 100) := by
    rw [hbrl]
    show jsTrim (' ' :: (natDigits (n / 100) ++ ',' :: pad2 (n % 100))) = _
    unfold jsTrim
    rw [List.dropWhile_cons_of_pos (by decide),
      dropWhile_eq_self_of_none _ _ hcore,
      dropWhile_eq_self_of_none _ _
        (fun c hc => hcore c (List.mem_reverse.mp hc)),
      List.reverse_reverse]
  rw [hstrip]
  -- Parse back.
  have hne : natDigits (n / 100) ++ ',' :: pad2 (n % 100) ≠ [] := by
    intro h
    exact absurd ((List.append_eq_nil.mp h).2) (List.cons_ne_nil _ _)
  rw [toNumberBRL, if_neg hne]
  have hfilter : (natDigits (n / 100) ++ ',' :: pad2 (n % 100)).filter
      (fun c => decide (c ≠ '.')) = natDigits (n / 100) ++ ',' :: pad2 (n % 100) := by
    rw [List.filter_eq_self]
    intro c hc
    rcases List.mem_append.mp hc with hc | hc
    · exact decide_eq_true (digit_ne_dot (hdigits c hc))
    rcases List.mem_cons.mp hc with rfl | hc
    · decide
    · exact decide_eq_true (digit_ne_dot (pad2_all_digits _ c hc))
  rw [hfilter]
  rw [replaceFirstComma_append _ _ (fun c hc => digit_ne_comma (hdigits c hc))]
  -- Evaluate jsNumber on `digits.digits`.
  have hnows : ∀ c ∈ natDigits (n / 100) ++ '.' :: pad2 (n % 100),
      isJsWs c = false := by
    intro c hc
    rcases List.mem_append.mp hc with hc | hc
    · exact digit_not_ws (hdigits c hc)
    rcases List.mem_cons.mp hc with rfl | hc
    · decide
    · exact digit_not_ws (pad2_all_digits _ c hc)
  have hne2 : natDigits (n / 100) ++ '.' :: pad2 (n % 100) ≠ [] := by
    intro h
    exact absurd ((List.append_eq_nil.mp h).2) (List.cons_ne_nil _ _)
  rw [jsNumber]
  rw [jsTrim_eq_self_of_no_ws _ hnows]
  rw [if_neg hne2]
  have hsplit := takeWhile_append_stop (fun c => decide (c ≠ '.')) '.'
    (pad2 (n % 100)) (by decide) (natDigits (n / 100))
    (fun c hc => decide_eq_true (digit_ne_dot (hdigits c hc)))
  rw [hsplit.1, hsplit.2]
  show (if (natDigits (n / 100)).all isAsciiDigit = true ∧
      (pad2 (n % 100)).all isAsciiDigit = true ∧
      (natDigits (n / 100) ≠ [] ∨ pad2 (n % 100) ≠ []) then
      some ((digitsToNat (natDigits (n / 100)) : ℚ) +
        (digitsToNat (pad2 (n % 100)) : ℚ) / (10 : ℚ) ^ (pad2 (n % 100)).length)
    else none) = some v
  rw [if_pos ⟨List.all_eq_true.mpr (fun c hc => hdigits c hc),
    List.all_eq_true.mpr (pad2_all_digits _),
    Or.inl (natDigitsCore_ne_nil _ _)⟩]
  have hip : digitsToNat (natDigits (n / 100)) = n / 100 := digitsToNat_natDigits _
  have hfp : digitsToNat (pad2 (n % 100)) = n % 100 :=
    digitsToNat_pad2 (Nat.mod_lt n (by omega))
  rw [hip, hfp]
  congr 1
  have hlen : (pad2 (n % 100)).length = 2 := rfl
  rw [hlen]
  have hmod : (100 : ℚ) * ((n / 100 : Nat) : ℚ) + ((n % 100 : Nat) : ℚ) = (n : ℚ) := by
    exact_mod_cast Nat.div_add_mod n 100
  have hv : (n : ℚ) = 100 * v := by
    rw [← hnq]; push_cast; ring
  rw [hv] at hmod
  have h100 : ((10 : ℚ) ^ (2 : Nat)) = 100 := by norm_num
  rw [h100]
  linarith

/-- Witness for C7 (amended) at `v = 15.99`. -/
theorem c7_round_trip_witness :
    toNumberBRL (jsTrim (removeFirstOcc (str "R$")
      (fromNumberToBRL ((1599 : ℚ) / 100)))) = some ((1599 : ℚ) / 100) :=
  c7_round_trip ((1599 : ℚ) / 100) (by norm_num) (by norm_num)

/-! ### C9: idempotence of the text normalizer -/

theorem isLowerAlnum_iff (c : Char) :
    isLowerAlnum c = true ↔
      (97 ≤ c.toNat ∧ c.toNat ≤ 122) ∨ (48 ≤ c.toNat ∧ c.toNat ≤ 57) := by
  simp [isLowerAlnum]

theorem isJsWs_iff (c : Char) :
    isJsWs c = true ↔
      (c.toNat = 32 ∨ c.toNat = 9 ∨ c.toNat = 10 ∨ c.toNat = 11 ∨
       c.toNat = 12 ∨ c.toNat = 13 ∨ c.toNat = 0xA0 ∨ c.toNat = 0x1680 ∨
       (0x2000 ≤ c.toNat ∧ c.toNat ≤ 0x200A) ∨ c.toNat = 0x2028 ∨
       c.toNat = 0x2029 ∨ c.toNat = 0x202F ∨ c.toNat = 0x205F ∨
       c.toNat = 0x3000 ∨ c.toNat = 0xFEFF) := by
  simp [isJsWs]
  tauto

/-- The character classes a finished `normalize` output can contain, plus the
no-adjacent-whitespace and trimmed-ends conditions: together they
characterize strings on which every stage of `normalize` is the identity. -/
def NormOut (l : List Char) : Prop :=
  (∀ c ∈ l, isLowerAlnum c = true ∨ c = ' ') ∧
  List.Chain' (fun a b => ¬(isJsWs a = true ∧ isJsWs b = true)) l ∧
  (∀ c, l.head? = some c → isJsWs c = false) ∧
  (∀ c, l.reverse.head? = some c → isJsWs c = false)

theorem lowerAlnum_not_ws {c : Char} (h : isLowerAlnum c = true) :
    isJsWs c = false := by
  rcases (isLowerAlnum_iff c).mp h with h' | h' <;>
    · rw [← Bool.not_eq_true]
      intro hw
      rcases (isJsWs_iff c).mp hw with hw' | hw' | hw' | hw' | hw' | hw' | hw' |
        hw' | hw' | hw' | hw' | hw' | hw' | hw' | hw' <;> omega

theorem keepAlnum_class (c : Char) :
    isLowerAlnum (keepAlnum c) = true ∨ isJsWs (keepAlnum c) = true := by
  unfold keepAlnum
  by_cases h : (isLowerAlnum c || isJsWs c) = true
  · rw [if_pos h]
    rcases Bool.or_eq_true_iff.mp h with h | h
    · exact Or.inl h
    · exact Or.inr h
  · rw [if_neg h]
    exact Or.inr (by decide)

theorem collapseWs_head : ∀ (rest : List Char) (a : Char),
    ∃ t, collapseWs (a :: rest) = (if isJsWs a then ' ' else a) :: t := by
  intro rest
  induction rest with
  | nil =>
    intro a
    refine ⟨[], ?_⟩
    rw [collapseWs]
    by_cases hw : isJsWs a
    · rw [if_pos hw, if_pos hw]
    · rw [if_neg hw, if_neg hw]
  | cons b rest2 ih =>
    intro a
    rw [collapseWs]
    by_cases hab : (isJsWs a && isJsWs b) = true
    · rw [if_pos hab]
      obtain ⟨ha, hb⟩ := Bool.and_eq_true_iff.mp hab
      obtain ⟨t, ht⟩ := ih b
      rw [ht, if_pos hb]
      exact ⟨t, by rw [if_pos ha]⟩
    · rw [if_neg hab]
      exact ⟨collapseWs (b :: rest2), rfl⟩

theorem collapseWs_class : ∀ (l : List Char),
    (∀ c ∈ l, isLowerAlnum c = true ∨ isJsWs c = true) →
    ∀ c ∈ collapseWs l, isLowerAlnum c = true ∨ c = ' ' := by
  intro l
  induction l with
  | nil => intro _ c hc; cases hc
  | cons a rest ih =>
    intro h c hc
    cases rest with
    | nil =>
      rw [collapseWs] at hc
      by_cases hw : isJsWs a
      · rw [if_pos hw] at hc
        rcases List.mem_cons.mp hc with rfl | hc
        · exact Or.inr rfl
        · cases hc
      · rw [if_neg hw] at hc
        rcases List.mem_cons.mp hc with rfl | hc
        · rcases h c (List.mem_cons_self _ _) with h' | h'
          · exact Or.inl h'
          · exact absurd h' hw
        · cases hc
    | cons b rest2 =>
      rw [collapseWs] at hc
      have hrest : ∀ d ∈ b :: rest2, isLowerAlnum d = true ∨ isJsWs d = true :=
        fun d hd => h d (List.mem_cons_of_mem _ hd)
      by_cases hab : (isJsWs a && isJsWs b) = true
      · rw [if_pos hab] at hc
        exact ih hrest c hc
      · rw [if_neg hab] at hc
        rcases List.mem_cons.mp hc with rfl | hc
        · by_cases hw : isJsWs a
          · rw [if_pos hw]; exact Or.inr rfl
          · rw [if_neg hw]
            rcases h a (List.mem_cons_self _ _) with h' | h'
            · exact Or.inl h'
            · exact absurd h' hw
        · exact ih hrest c hc

theorem collapseWs_chain : ∀ (l : List Char),
    List.Chain' (fun a b => ¬(isJsWs a = true ∧ isJsWs b = true))
      (collapseWs l) := by
  intro l
  induction l with
  | nil => exact List.chain'_nil
  | cons a rest ih =>
    cases rest with
    | nil =>
      rw [collapseWs]
      by_cases hw : isJsWs a
      · rw [if_pos hw]; exact List.chain'_singleton _
      · rw [if_neg hw]; exact List.chain'_singleton _
    | cons b rest2 =>
      rw [collapseWs]
      by_cases hab : (isJsWs a && isJsWs b) = true
      · rw [if_pos hab]; exact ih
      · rw [if_neg hab]
        obtain ⟨t, ht⟩ := collapseWs_head rest2 b
        rw [ht]
        rw [ht] at ih
        refine List.chain'_cons.mpr ⟨?_, ih⟩
        rintro ⟨hws1, hws2⟩
        by_cases hwa : isJsWs a = true
        · have hwb : isJsWs b = false := by
            rcases Bool.and_eq_false_iff.mp (by simpa using hab) with h' | h'
            · exact absurd hwa (by simp [h'])
            · exact h'
          rw [if_neg (by rw [hwb]; exact Bool.false_ne_true)] at hws2
          rw [hwb] at hws2
          cases hws2
        · rw [if_neg hwa] at hws1
          exact hwa hws1

theorem head_dropWhile_not (p : Char → Bool) :
    ∀ (l : List Char) (c : Char), (l.dropWhile p).head? = some c →
      p c = false := by
  intro l
  induction l with
  | nil => intro c h; cases h
  | cons a rest ih =>
    intro c h
    by_cases ha : p a = true
    · rw [List.dropWhile_cons_of_pos ha] at h
      exact ih c h
    · rw [List.dropWhile_cons_of_neg ha] at h
      cases h
      simpa using ha

theorem jsTrim_front (l : List Char) :
    ∃ t, jsTrim l ++ t = l.dropWhile isJsWs := by
  unfold jsTrim
  obtain ⟨s, hs⟩ :=
    List.dropWhile_suffix (l := (l.dropWhile isJsWs).reverse) isJsWs
  refine ⟨s.reverse, ?_⟩
  rw [← List.reverse_append, hs, List.reverse_reverse]

theorem jsTrim_between (l : List Char) : ∃ s t, s ++ jsTrim l ++ t = l := by
  obtain ⟨t, ht⟩ := jsTrim_front l
  obtain ⟨s, hs⟩ := List.dropWhile_suffix (l := l) isJsWs
  exact ⟨s, t, by rw [List.append_assoc, ht, hs]⟩

theorem mem_jsTrim {c : Char} {l : List Char} (h : c ∈ jsTrim l) : c ∈ l := by
  obtain ⟨s, t, hst⟩ := jsTrim_between l
  rw [← hst]
  exact List.mem_append.mpr (Or.inl (List.mem_append.mpr (Or.inr h)))

theorem jsTrim_head (l : List Char) :
    ∀ c, (jsTrim l).head? = some c → isJsWs c = false := by
  intro c hc
  obtain ⟨t, ht⟩ := jsTrim_front l
  have hd1 : (l.dropWhile isJsWs).head? = some c := by
    cases htl : jsTrim l with
    | nil => rw [htl] at hc; cases hc
    | cons x xs =>
      rw [htl] at hc ht
      cases hc
      rw [← ht]
      rfl
  exact head_dropWhile_not isJsWs l c hd1

theorem jsTrim_reverse_head (l : List Char) :
    ∀ c, (jsTrim l).reverse.head? = some c → isJsWs c = false := by
  intro c hc
  unfold jsTrim at hc
  rw [List.reverse_reverse] at hc
  exact head_dropWhile_not isJsWs _ c hc

/-- Every output of `normalize` satisfies the normalized-string
characterization. -/
theorem normalize_normOut (s : List Char) : NormOut (normalize s) := by
  unfold normalize
  set mid := ((((s.map jsToLower).map nfdDecomp).flatten).filter
    (fun c => !(isDiacritic c))).map keepAlnum with hmid
  have hmidclass : ∀ c ∈ mid, isLowerAlnum c = true ∨ isJsWs c = true := by
    intro c hc
    rw [hmid] at hc
    obtain ⟨d, _, hd⟩ := List.mem_map.mp hc
    rw [← hd]
    exact keepAlnum_class d
  refine ⟨?_, ?_, ?_, ?_⟩
  · intro c hc
    exact collapseWs_class mid hmidclass c (mem_jsTrim hc)
  · obtain ⟨u, t, hut⟩ := jsTrim_between (collapseWs mid)
    have := collapseWs_chain mid
    rw [← hut] at this
    exact ((this.left_of_append).right_of_append)
  · exact jsTrim_head _
  · exact jsTrim_reverse_head _

theorem map_eq_self_of (f : Char → Char) :
    ∀ (l : List Char), (∀ c ∈ l, f c = c) → l.map f = l := by
  intro l
  induction l with
  | nil => intro _; rfl
  | cons a rest ih =>
    intro h
    rw [List.map_cons, h a (List.mem_cons_self _ _),
      ih (fun c hc => h c (List.mem_cons_of_mem _ hc))]

theorem flatten_map_eq_self (g : Char → List Char) :
    ∀ (l : List Char), (∀ c ∈ l, g c = [c]) → (l.map g).flatten = l := by
  intro l
  induction l with
  | nil => intro _; rfl
  | cons a rest ih =>
    intro h
    rw [List.map_cons, List.flatten_cons, h a (List.mem_cons_self _ _),
      ih (fun c hc => h c (List.mem_cons_of_mem _ hc))]
    rfl

theorem jsToLower_fixed {c : Char} (h : isLowerAlnum c = true ∨ c = ' ') :
    jsToLower c = c := by
  rcases h with h | rfl
  · have hb := (isLowerAlnum_iff c).mp h
    unfold jsToLower
    rw [if_neg (by omega), if_neg (by omega)]
  · decide

theorem nfdDecomp_fixed {c : Char} (h : isLowerAlnum c = true ∨ c = ' ') :
    nfdDecomp c = [c] := by
  have hn : c.toNat ≤ 122 := by
    rcases h with h | rfl
    · rcases (isLowerAlnum_iff c).mp h with h' | h' <;> omega
    · decide
  unfold nfdDecomp
  rw [List.find?_eq_none.mpr]
  · intro e he
    have h224 : ∀ e ∈ nfdTable, 224 ≤ e.1.toNat := by decide
    intro hec
    have := h224 e he
    rw [of_decide_eq_true hec] at this
    omega

theorem isDiacritic_fixed {c : Char} (h : isLowerAlnum c = true ∨ c = ' ') :
    isDiacritic c = false := by
  rcases h with h | rfl
  · have hb := (isLowerAlnum_iff c).mp h
    rw [← Bool.not_eq_true]
    intro hd
    simp only [isDiacritic, Bool.or_eq_true, decide_eq_true_eq,
      Bool.and_eq_true] at hd
    omega
  · decide

theorem keepAlnum_fixed {c : Char} (h : isLowerAlnum c = true ∨ c = ' ') :
    keepAlnum c = c := by
  unfold keepAlnum
  rcases h with h | rfl
  · rw [if_pos (by rw [h]; rfl)]
  · rw [if_pos (by decide)]

theorem collapseWs_fixed : ∀ (l : List Char),
    (∀ c ∈ l, isLowerAlnum c = true ∨ c = ' ') →
    List.Chain' (fun a b => ¬(isJsWs a = true ∧ isJsWs b = true)) l →
    collapseWs l = l := by
  intro l
  induction l with
  | nil => intro _ _; rfl
  | cons a rest ih =>
    intro hcl hch
    cases rest with
    | nil =>
      rw [collapseWs]
      by_cases hw : isJsWs a
      · have ha : a = ' ' := by
          rcases hcl a (List.mem_cons_self _ _) with h | h
          · exact absurd hw (by rw [lowerAlnum_not_ws h]; decide)
          · exact h
        rw [if_pos hw, ha]
      · rw [if_neg hw]
    | cons b rest2 =>
      rw [collapseWs]
      have hrel := (List.chain'_cons.mp hch).1
      have hab : (isJsWs a && isJsWs b) ≠ true := by
        intro h
        exact hrel (Bool.and_eq_true_iff.mp h)
      rw [if_neg hab]
      have hrest := ih (fun c hc => hcl c (List.mem_cons_of_mem _ hc))
        (List.chain'_cons.mp hch).2
      rw [hrest]
      by_cases hw : isJsWs a
      · have ha : a = ' ' := by
          rcases hcl a (List.mem_cons_self _ _) with h | h
          · exact absurd hw (by rw [lowerAlnum_not_ws h]; decide)
          · exact h
        rw [if_pos hw, ha]
      · rw [if_neg hw]

theorem dropWhile_eq_self_of_head (p : Char → Bool) (l : List Char)
    (h : ∀ c, l.head? = some c → p c = false) : l.dropWhile p = l := by
  cases l with
  | nil => rfl
  | cons a rest =>
    rw [List.dropWhile_cons_of_neg]
    rw [h a rfl]
    exact Bool.false_ne_true

theorem jsTrim_fixed (l : List Char)
    (hh : ∀ c, l.head? = some c → isJsWs c = false)
    (ht : ∀ c, l.reverse.head? = some c → isJsWs c = false) : jsTrim l = l := by
  unfold jsTrim
  rw [dropWhile_eq_self_of_head _ l hh, dropWhile_eq_self_of_head _ _ ht,
    List.reverse_reverse]

/-- `normalize` is the identity on strings satisfying the normalized-string
characterization. -/
theorem normalize_fixed {l : List Char} (h : NormOut l) : normalize l = l := by
  obtain ⟨hcl, hch, hh, ht⟩ := h
  unfold normalize
  rw [map_eq_self_of jsToLower l (fun c hc => jsToLower_fixed (hcl c hc))]
  rw [flatten_map_eq_self nfdDecomp l (fun c hc => nfdDecomp_fixed (hcl c hc))]
  rw [List.filter_eq_self.mpr
    (fun c hc => by rw [isDiacritic_fixed (hcl c hc)]; rfl)]
  rw [map_eq_self_of keepAlnum l (fun c hc => keepAlnum_fixed (hcl c hc))]
  rw [collapseWs_fixed l hcl hch]
  exact jsTrim_fixed l hh ht

/-- C9: the text normalizer is idempotent — `normalize(normalize(s)) ==
normalize(s)` for every string, and it is a total function with no failure
mode. -/
theorem c9_normalize_idempotent (s : List Char) :
    normalize (normalize s) = normalize s :=
  normalize_fixed (normalize_normOut s)

end Starmind
